import Mathlib

/-!
Shallow embedding of the Kadota package manager core
(`src/SysPkgs/pkg/pkg.py`, with the `src/SysApps/pkg/pkg.py` variant where a
claim refers to it).  Strings are modelled as `List Char` so that every string
operation (Python `in`, `str.split`, dict comprehensions, …) is an executable
structural recursion; packages, dependency constraints and resolver/merge
steps are translated function by function from the Python source.  The
`packaging.version.Version` class is an external library (not part of `src/`),
so version parsing and ordering are modelled from the spec (§4.1), as is the
merge policy engine (§4.6), whose emission code is absent from the source
(only comments at `pkg.py:462-481` describe it).
-/

/-- `chIsPre needle hay`: `needle` is a prefix of `hay` (character lists). -/
def chIsPre : List Char → List Char → Bool
  | [], _ => true
  | _ :: _, [] => false
  | a :: as, b :: bs => (a == b) && chIsPre as bs

/-- Python's substring test `needle in hay` on character lists. -/
def chContains (needle : List Char) : List Char → Bool
  | [] => needle.isEmpty
  | c :: t => chIsPre needle (c :: t) || chContains needle t

/-- Python's `hay.split(sep)` for a two-character separator `[a, b]`
(left-to-right, non-overlapping, keeps empty fields). -/
def splitOn2 (a b : Char) : List Char → List (List Char)
  | [] => [[]]
  | [c] => [[c]]
  | c :: d :: t =>
    if c = a ∧ d = b then
      [] :: splitOn2 a b t
    else
      match splitOn2 a b (d :: t) with
      | [] => [[c]]
      | h :: r => (c :: h) :: r

/-- Python's `hay.split(sep)` for a three-character separator `[a, b, e]`
(used for the registry's `***` delimiter). -/
def splitOn3 (a b e : Char) : List Char → List (List Char)
  | [] => [[]]
  | [c] => [[c]]
  | [c, d] => [[c, d]]
  | c :: d :: f :: t =>
    if c = a ∧ d = b ∧ f = e then
      [] :: splitOn3 a b e t
    else
      match splitOn3 a b e (d :: f :: t) with
      | [] => [[c]]
      | h :: r => (c :: h) :: r

/-- Split a character list at every character satisfying `p`
(keeps empty fields). -/
def splitOnPred (p : Char → Bool) : List Char → List (List Char)
  | [] => [[]]
  | c :: t =>
    if p c then
      [] :: splitOnPred p t
    else
      match splitOnPred p t with
      | [] => [[c]]
      | h :: r => (c :: h) :: r

/-- The text strictly before the first occurrence of `[a, b]`
(the whole list when there is no occurrence). -/
def beforeFirst2 (a b : Char) : List Char → List Char
  | [] => []
  | [c] => [c]
  | c :: d :: t =>
    if c = a ∧ d = b then [] else c :: beforeFirst2 a b (d :: t)

/-- The text strictly after the first occurrence of `[a, b]`
(empty when there is no occurrence). -/
def rest2 (a b : Char) : List Char → List Char
  | [] => []
  | [_] => []
  | c :: d :: t =>
    if c = a ∧ d = b then t else rest2 a b (d :: t)

/-- Three-way comparison on `Nat` used by the modelled version order. -/
def natCmp (m n : Nat) : Ordering :=
  if m < n then .lt else if n < m then .gt else .eq

/-- Lexicographic comparison of lists under an element comparison. -/
def lexCmp (cmp : α → α → Ordering) : List α → List α → Ordering
  | [], [] => .eq
  | [], _ :: _ => .lt
  | _ :: _, [] => .gt
  | a :: as, b :: bs =>
    match cmp a b with
    | .eq => lexCmp cmp as bs
    | o => o

/-- Numeric value of a digit string. -/
def digitsToNat (s : List Char) : Nat :=
  s.foldl (fun n c => n * 10 + (c.toNat - '0'.toNat)) 0

/-- A version segment "parses as an integer": nonempty and all digits. -/
def segIsNum (s : List Char) : Bool :=
  (!s.isEmpty) && s.all Char.isDigit

/-- Modelled from the spec: §4.1 — a version segment compares numerically if
both sides parse as integers, else lexicographically.  The implementation
delegates version semantics to the external `packaging.version` library,
which is not part of `src/`. -/
def segCmp (s t : List Char) : Ordering :=
  if segIsNum s && segIsNum t then
    natCmp (digitsToNat s) (digitsToNat t)
  else
    lexCmp (fun c d => natCmp c.toNat d.toNat) s t

/-- Modelled from the spec: §3/§4.1 — a Version is an ordered sequence of
segments parsed from a dot/hyphen-delimited string. -/
abbrev Version : Type := List (List Char)

/-- Modelled from the spec: §4.1 — total comparison of Versions, segmentwise. -/
def verCmp (v w : Version) : Ordering :=
  lexCmp segCmp v w

/-- Modelled from the spec: §4.1 — parsing a dot/hyphen-delimited version
string into its segments; fails (`none`) on an empty or otherwise
unparseable string (a segment that is empty or not alphanumeric). -/
def parseVersion (s : List Char) : Option Version :=
  if s.isEmpty then none
  else
    let segs := splitOnPred (fun c => c = '.' || c = '-') s
    if segs.all (fun seg => (!seg.isEmpty) && seg.all Char.isAlphanum) then
      some segs
    else
      none

/-- `Package` from `pkg.py:16-22`: name, version and on-disk root path. -/
structure Package where
  name : List Char
  version : Version
  path : List Char
deriving DecidableEq

/-- `Dependency` from `pkg.py:59-67`: a package name with an optional
comparison operator and an optional version (the constructor accepts
`None` for both, as `parse_dep` produces for a bare name). -/
structure Dependency where
  name : List Char
  comparison : Option (List Char)
  version : Option Version
deriving DecidableEq

/-- `Dependency.satisfied_by` from `pkg.py:69-83`.  `none` models a Python
`TypeError` (an ordered comparison against a `None` version); the `"=="`
branches use Python's `None == v → False`. -/
def satisfied_by (d : Dependency) (v : Version) : Option Bool :=
  if d.comparison = some ['=', '='] then
    some (match d.version with
          | some dv => decide (verCmp dv v = .eq)
          | none => false)
  else if d.comparison = some ['='] then
    some (match d.version with
          | some dv => decide (verCmp dv v = .eq)
          | none => false)
  else if d.comparison = some ['>', '='] then
    d.version.map (fun dv => decide (verCmp dv v ≠ .gt))
  else if d.comparison = some ['<', '='] then
    d.version.map (fun dv => decide (verCmp dv v ≠ .lt))
  else if d.comparison = some ['>'] then
    d.version.map (fun dv => decide (verCmp dv v = .lt))
  else if d.comparison = some ['<'] then
    d.version.map (fun dv => decide (verCmp dv v = .gt))
  else
    some true

/-- Helper for `parse_dep`: the comparator `[a, b]` (printed form `cs`) was
found in `dep`; split on it and take fields 0 and 1, as
`dep.split(comparison)[0]` / `[1]` do (`pkg.py:332-334`).  A version string
the `Dependency` constructor cannot parse raises, modelled as `.error`. -/
def mkParsed (a b : Char) (cs : List Char) (dep : List Char) :
    Except (List Char) Dependency :=
  let parts := splitOn2 a b dep
  let dep_name := parts.getD 0 []
  let dep_version := parts.getD 1 []
  match parseVersion dep_version with
  | some v => .ok ⟨dep_name, some cs, some v⟩
  | none => .error dep_version

/-- `parse_dep` from `pkg.py:310-334`: scan for `==`, `>=`, `<=` (in that
order, by substring containment); a bare name when none occurs. -/
def parse_dep (dep : List Char) : Except (List Char) Dependency :=
  if chContains ['=', '='] dep then
    mkParsed '=' '=' ['=', '='] dep
  else if chContains ['>', '='] dep then
    mkParsed '>' '=' ['>', '='] dep
  else if chContains ['<', '='] dep then
    mkParsed '<' '=' ['<', '='] dep
  else
    .ok ⟨dep, none, none⟩

/-- `get_deps_info` from `pkg.py:336-359`: parse each declaration in order
(a parse failure propagates, as the Python exception does). -/
def get_deps_info (deps : List (List Char)) : Except (List Char) (List Dependency) :=
  deps.mapM parse_dep

/-- `get_pkg_list` from `pkg.py:229-244` over a registry directory listing:
an entry that does not split into exactly two `***`-delimited parts is
reported (second component) and skipped; a well-formed entry yields one
`Package`; a version string `Version` cannot parse raises out of the
generator (`.error`). -/
def get_pkg_list (rootp : List Char) :
    List (List Char) → Except (List Char) (List Package × List (List Char))
  | [] => .ok ([], [])
  | e :: rest =>
    let parts := splitOn3 '*' '*' '*' e
    if parts.length = 2 then
      match parseVersion (parts.getD 1 []) with
      | some ver => do
        let (pkgs, diags) ← get_pkg_list rootp rest
        .ok (⟨parts.getD 0 [], ver, rootp ++ "/System/Packages/".data ++ e⟩ :: pkgs, diags)
      | none => .error e
    else do
      let (pkgs, diags) ← get_pkg_list rootp rest
      .ok (pkgs, e :: diags)

/-- `pkg_info_t` from `src/SysApps/pkg/pkg.py:11`: name, version and path
fields, but the SysApps listing fills the version with the *raw unparsed
string* and the path with the *bare entry name*, so the record is kept as
a separate type from `Package`. -/
structure PkgInfoT where
  name : List Char
  version : List Char
  path : List Char
deriving DecidableEq

/-- `get_pkg_list` from `src/SysApps/pkg/pkg.py:168-188`: the same `***`
split and skip-with-diagnostic behaviour, but each well-formed entry
yields `pkg_info_t(pkg_name[0], pkg_name[1], pkg)` — the version field is
the raw second split part (no `Version` construction, so nothing can
raise) and the path field is the bare directory-entry name `pkg`, not a
path under `{root}/System/Packages`. -/
def get_pkg_list_SysApps : List (List Char) → List PkgInfoT × List (List Char)
  | [] => ([], [])
  | e :: rest =>
    let parts := splitOn3 '*' '*' '*' e
    let pr := get_pkg_list_SysApps rest
    if parts.length = 2 then
      (⟨parts.getD 0 [], parts.getD 1 [], e⟩ :: pr.1, pr.2)
    else
      (pr.1, e :: pr.2)

/-- `search_pkg_list` from `pkg.py:246-267`: filter the package listing by
exact name (`strict`) or by Python's substring test `name in pkg.name`. -/
def search_pkg_list (rootp : List Char) (entries : List (List Char))
    (name : List Char) (strict : Bool) : Except (List Char) (List Package) := do
  let (pkgs, _) ← get_pkg_list rootp entries
  .ok (pkgs.filter (fun p =>
    if strict then decide (p.name = name) else chContains name p.name))

/-- One step of the `for candidate in candidates` loop of `get_pkg`
(`pkg.py:284-289`). -/
def newestStep (newest candidate : Package) : Package :=
  if verCmp newest.version candidate.version = .lt then candidate else newest

/-- `get_pkg` from `pkg.py:269-290`: the newest package whose name contains
`name` as a substring, `none` when there is no match. -/
def get_pkg (rootp : List Char) (entries : List (List Char)) (name : List Char) :
    Except (List Char) (Option Package) := do
  let candidates ← search_pkg_list rootp entries name false
  match candidates with
  | [] => .ok none
  | first :: others => .ok (some (others.foldl newestStep first))

/-- One step of the `for pkg in pkgs` loop of `deps_to_pkgs`
(`pkg.py:370-372`): replace `best` when `pkg.version > best.version and
dep.satisfied_by(pkg.version)` (short-circuit; a `TypeError` from
`satisfied_by` propagates). -/
def resolveStep (dep : Dependency) (best pkg : Package) :
    Except (List Char) Package :=
  if verCmp best.version pkg.version = .lt then
    match satisfied_by dep pkg.version with
    | some true => .ok pkg
    | some false => .ok best
    | none => .error "TypeError".data
  else
    .ok best

/-- `deps_to_pkgs` from `pkg.py:361-375`, over the packages the strict
`search_pkg_list` enumerates per name (the registry listing, in order).
`best` starts at `pkgs[0]` and the loop runs over all of `pkgs`;
`ValueError` for a name with no package is modelled as `.error name`. -/
def deps_to_pkgs (registry : List Package) :
    List Dependency → Except (List Char) (List Package)
  | [] => .ok []
  | dep :: rest =>
    let pkgs := registry.filter (fun p => decide (p.name = dep.name))
    match pkgs with
    | [] => .error dep.name
    | first :: _ => do
      let best ← pkgs.foldlM (resolveStep dep) first
      let others ← deps_to_pkgs registry rest
      .ok (best :: others)

/-- Insertion into a Python `dict` modelled as an association list:
an existing key keeps its position and gets the new value, a new key is
appended (CPython dicts preserve insertion order). -/
def pyDictInsert [DecidableEq α] (d : List (α × β)) (k : α) (v : β) :
    List (α × β) :=
  if d.any (fun p => decide (p.1 = k)) then
    d.map (fun p => if p.1 = k then (k, v) else p)
  else
    d ++ [(k, v)]

/-- First-match association-list lookup (Python `d[k]` / `k in d`). -/
def lookupA [DecidableEq α] : List (α × β) → α → Option β
  | [], _ => none
  | p :: t, k0 => if k0 = p.1 then some p.2 else lookupA t k0

/-- `occurence_count` from `pkg.py:307-308`: the dict comprehension
`{x: l.count(x) for x in l}`, built by inserting `(x, l.count x)` for each
`x` of `l` in order. -/
def occurence_count [DecidableEq α] (l : List α) : List (α × Nat) :=
  l.foldl (fun d x => pyDictInsert d x (l.count x)) []

/-- Iterating a Python dict yields its keys in insertion order. -/
def pyDictKeys (d : List (α × β)) : List α :=
  d.map (fun p => p.1)

/-- `item_t` from `pkg.py:411-418`.  `occurences` starts as `None`; the
tally loop at `pkg.py:456-460` assigns it whatever `zip` pairs it with — a
relative-path key of the occurrence dict (left summand), where the intended
tally value would be a count (right summand). -/
structure ItemT where
  bwrap_loc : List Char
  fullpath : List Char
  pkg : List Char
  occurences : Option (List Char ⊕ Nat)
deriving DecidableEq

/-- The tally step of `generate_bwrap_args` (`pkg.py:450-460`) for one of
the two item lists: build `occurence_count` of the items' `bwrap_loc`s and
run `for item,occ in zip(items, occ_dict): item.occurences = occ` — pairing
items positionally with the dict's keys; items beyond the number of
distinct keys keep `occurences = None`. -/
def tally_step (items : List ItemT) : List ItemT :=
  let occ := occurence_count (items.map (fun i => i.bwrap_loc))
  let ks := pyDictKeys occ
  ((items.zip ks).map (fun p => { p.1 with occurences := some (Sum.inl p.2) }))
    ++ items.drop ks.length

/-- The five fixed arguments of `generate_bwrap_args` (`pkg.py:395-400`). -/
def bwrapFixedArgs (rootp : List Char) : List (List Char) :=
  ["--overlay-src ".data ++ rootp,
   "--tmp-overlay /".data,
   "--bind ".data ++ rootp ++ "/System /System".data,
   "--bind ".data ++ rootp ++ "/Users /Users".data,
   "--bind ".data ++ rootp ++ "/Volumes /Volumes".data]

/-- `generate_bwrap_args` from `src/SysPkgs/pkg/pkg.py:380-483`: append the
five fixed arguments, parse and resolve the dependencies (their exceptions
propagate), and return `args`.  The directory/file item code at
`pkg.py:410-476` fills local lists, runs the tally step and prints the
items, but never appends to `args` and cannot alter the returned value, so
the returned list is exactly the fixed five whenever resolution succeeds. -/
def generate_bwrap_args (rootp : List Char) (entries : List (List Char))
    (deps : List (List Char)) : Except (List Char) (List (List Char)) := do
  let args := bwrapFixedArgs rootp
  let deps_info ← get_deps_info deps
  let (pkgs, _) ← get_pkg_list rootp entries
  let _ ← deps_to_pkgs pkgs deps_info
  .ok args

/-- The local `args` value of the SysApps `generate_bwrap_args`
(`src/SysApps/pkg/pkg.py:264-271`): `args += f"..."` on a list extends it
with the characters of the string, so after the five `+=` lines `args` is
one flat character list. -/
def generate_bwrap_args_SysApps_args (rootp : List Char) : List Char :=
  ("--overlay-src ".data ++ rootp)
    ++ "--tmp-overlay /".data
    ++ ("--bind ".data ++ rootp ++ "/System /System".data)
    ++ ("--bind ".data ++ rootp ++ "/Users /Users".data)
    ++ ("--bind ".data ++ rootp ++ "/Volumes /Volumes".data)

/-- The SysApps `generate_bwrap_args` (`src/SysApps/pkg/pkg.py:254-271`)
has no `return` statement, so the call returns Python `None` — never an
argument list. -/
def generate_bwrap_args_SysApps (_rootp : List Char) (_deps : List (List Char)) :
    Option (List (List Char)) :=
  none

/-- Index of the first element satisfying `q` (length when there is none);
for the merge model this is the lowest priority rank of a contributor. -/
def myFindIdx (q : α → Bool) : List α → Nat
  | [] => 0
  | a :: t => if q a then 0 else myFindIdx q t + 1

/-- Distinct elements of a list, first occurrences, in order. -/
def firstDedup [DecidableEq α] (seen : List α) : List α → List α
  | [] => []
  | a :: t =>
    if a ∈ seen then firstDedup seen t else a :: firstDedup (a :: seen) t

/-- Modelled from the spec: §4.6 merge policy engine for files — the
emission code is absent from `src/` (`pkg.py:471-481` holds only comments).
Input: per-package file lists of the resolved dependency set, in priority
order (rank = list index).  For every distinct relative path one symbolic
link is emitted, targeting the copy of the contributing package with the
lowest priority rank (for a single contributor that is the sole owner). -/
def mergeFileActions (pkgs : List (List (List Char))) :
    List ((List Char) × Nat) :=
  let allPaths := pkgs.flatten
  (firstDedup [] allPaths).map
    (fun p => (p, myFindIdx (fun fs => decide (p ∈ fs)) pkgs))

/-- Version `1.0`. -/
def v10 : Version := [['1'], ['0']]

/-- Version `1.2`. -/
def v12 : Version := [['1'], ['2']]

/-- Version `1.5`. -/
def v15 : Version := [['1'], ['5']]

/-- Version `2.0`. -/
def v20 : Version := [['2'], ['0']]

/-- Registry candidate `A@1.0`. -/
def pkgA10 : Package := ⟨"A".data, v10, "r10".data⟩

/-- Registry candidate `A@1.2`. -/
def pkgA12 : Package := ⟨"A".data, v12, "r12".data⟩

/-- Registry candidate `A@2.0`. -/
def pkgA20 : Package := ⟨"A".data, v20, "r20".data⟩

/-- The constraint `A<=1.5`. -/
def depALe15 : Dependency := ⟨"A".data, some ['<', '='], some v15⟩

/-- Claim C1, failing input: `deps_to_pkgs` initialises `best` to `pkgs[0]`
without checking `satisfied_by` (`pkg.py:369`), so with the registry
enumerated as `A@2.0, A@1.0, A@1.2` the constraint `A<=1.5` resolves to
`A@2.0` — which does not satisfy the constraint — instead of the claimed
`A@1.2`; with the ascending enumeration it does return `A@1.2`, so the
result is not the greatest satisfying candidate "in any enumeration
order". -/
theorem claim1_resolver_maximality_bug :
    deps_to_pkgs [pkgA20, pkgA10, pkgA12] [depALe15] = .ok [pkgA20] ∧
    satisfied_by depALe15 pkgA20.version = some false ∧
    deps_to_pkgs [pkgA10, pkgA12, pkgA20] [depALe15] = .ok [pkgA12] :=
  ⟨rfl, by decide, rfl⟩

/-- Claim C2, failing input: with registry `[A@2.0]` and constraint
`A<=1.5` no candidate satisfies the constraint, yet `deps_to_pkgs` raises
nothing and returns `[A@2.0]` (`pkg.py:366-373` only raises when the name
has zero packages); the zero-candidate case does error with the name. -/
theorem claim2_resolution_error_bug :
    deps_to_pkgs [pkgA20] [depALe15] = .ok [pkgA20] ∧
    satisfied_by depALe15 pkgA20.version = some false ∧
    deps_to_pkgs ([] : List Package) [depALe15] = .error "A".data :=
  ⟨rfl, by decide, rfl⟩

/-- A directory item contributed by one package at relative path `/usr`. -/
def itemUsr : ItemT := ⟨"/usr".data, "/reg/P/chroot/usr".data, "P".data, none⟩

/-- Claim C3, failing input: one resolved package contributing the single
directory `/usr`.  The tally loop `for dir,occ in zip(directories,
dirs_occ)` (`pkg.py:456-457`) iterates the dict positionally, yielding its
*keys*, so `occurences` is set to the relative-path string `/usr` — not to
the count `1` that `occurence_count` associates with that path; the claimed
key-based join never happens. -/
theorem claim3_tally_join_bug :
    tally_step [itemUsr]
      = [{ itemUsr with occurences := some (Sum.inl "/usr".data) }] ∧
    occurence_count [itemUsr.bwrap_loc] = [("/usr".data, 1)] ∧
    (Sum.inl "/usr".data : List Char ⊕ Nat) ≠ Sum.inr 1 :=
  ⟨rfl, by decide, by decide⟩

/-- Claim C8, failing input: registry `P1***1.0, P2***1.0` whose packages
both contain the file `/etc/foo.conf`, dependencies `["P1", "P2"]`.  The
SysPkgs `generate_bwrap_args` returns exactly the five fixed arguments and
never appends a per-merge-action group (the emission code at
`pkg.py:462-481` is comments and prints only), although the merge policy
would emit an action for `/etc/foo.conf`; the SysApps variant returns
`None` — no argument list at all — its local `args` having been extended
character-by-character by `args += f"..."`. -/
theorem claim8_bwrap_args_bug :
    generate_bwrap_args "/r".data ["P1***1.0".data, "P2***1.0".data]
        ["P1".data, "P2".data]
      = .ok (bwrapFixedArgs "/r".data) ∧
    (bwrapFixedArgs "/r".data).length = 5 ∧
    mergeFileActions [["/etc/foo.conf".data], ["/etc/foo.conf".data]]
      = [("/etc/foo.conf".data, 0)] ∧
    generate_bwrap_args_SysApps "/r".data ["P1".data] = none ∧
    generate_bwrap_args_SysApps_args "/r".data
      = "--overlay-src /r--tmp-overlay /--bind /r/System /System--bind /r/Users /Users--bind /r/Volumes /Volumes".data :=
  ⟨rfl, by decide, by decide, rfl, by decide⟩

/-- Claim C6, counterexample: in `"p==1.0==2.0"` the comparator `==`
occurs twice.  Splitting at the *first* occurrence, as the claim states,
would give the version text `"1.0==2.0"` (which is not even a parseable
version), but the code takes `dep.split("==")[1]`, the text *between* the
first and second occurrences, and successfully returns version `1.0`. -/
theorem claim6_parse_dep_counterexample :
    parse_dep "p==1.0==2.0".data
      = .ok ⟨"p".data, some ['=', '='], some [['1'], ['0']]⟩ ∧
    beforeFirst2 '=' '=' "p==1.0==2.0".data = "p".data ∧
    rest2 '=' '=' "p==1.0==2.0".data = "1.0==2.0".data ∧
    parseVersion "1.0==2.0".data = none :=
  ⟨rfl, by decide, by decide, by decide⟩

/-- Claim C5: `satisfied_by` dispatches on the comparator exactly as the
spec states — `==` is version equality, `>=`/`<=`/`>`/`<` compare the
candidate against the constraint version (`verCmp dv v ≠ .gt` says the
candidate `v` is at least the constraint version `dv`, and so on), an
absent comparator always satisfies — and the spec's concrete instance
`Constraint("pkg", ">=", 1.5)` holds of `2.0` and fails of `1.0`. -/
theorem claim5_satisfied_by (name : List Char) (dv v : Version) :
    (satisfied_by ⟨name, some ['=', '='], some dv⟩ v = some true ↔ verCmp dv v = .eq) ∧
    (satisfied_by ⟨name, some ['>', '='], some dv⟩ v = some true ↔ verCmp dv v ≠ .gt) ∧
    (satisfied_by ⟨name, some ['<', '='], some dv⟩ v = some true ↔ verCmp dv v ≠ .lt) ∧
    (satisfied_by ⟨name, some ['>'], some dv⟩ v = some true ↔ verCmp dv v = .lt) ∧
    (satisfied_by ⟨name, some ['<'], some dv⟩ v = some true ↔ verCmp dv v = .gt) ∧
    satisfied_by ⟨name, none, none⟩ v = some true ∧
    satisfied_by ⟨"pkg".data, some ['>', '='], some v15⟩ v20 = some true ∧
    satisfied_by ⟨"pkg".data, some ['>', '='], some v15⟩ v10 = some false := by
  refine ⟨?_, ?_, ?_, ?_, ?_, ?_, by decide, by decide⟩ <;>
    simp [satisfied_by]

theorem lookupA_map_self [DecidableEq α] (d : List (α × β)) (k : α) (v : β)
    (h : d.any (fun p => decide (p.1 = k)) = true) :
    lookupA (d.map (fun p => if p.1 = k then (k, v) else p)) k = some v := by
  induction d with
  | nil => simp at h
  | cons hd t ih =>
    rw [List.map_cons]
    by_cases hk : hd.1 = k
    · rw [if_pos hk]
      simp [lookupA]
    · rw [if_neg hk]
      simp only [lookupA, if_neg (Ne.symm hk)]
      apply ih
      simp only [List.any_cons, Bool.or_eq_true, decide_eq_true_eq] at h
      rcases h with h | h
      · exact absurd h hk
      · simpa using h

theorem lookupA_map_ne [DecidableEq α] (d : List (α × β)) (k k0 : α) (v : β)
    (h : k0 ≠ k) :
    lookupA (d.map (fun p => if p.1 = k then (k, v) else p)) k0 = lookupA d k0 := by
  induction d with
  | nil => rfl
  | cons hd t ih =>
    rw [List.map_cons]
    by_cases hk : hd.1 = k
    · rw [if_pos hk]
      have hne : k0 ≠ hd.1 := fun hh => h (hh.trans hk)
      simp only [lookupA, if_neg h, if_neg hne, ih]
    · rw [if_neg hk]
      simp only [lookupA, ih]

theorem lookupA_none_iff [DecidableEq α] (d : List (α × β)) (k : α) :
    lookupA d k = none ↔ k ∉ d.map Prod.fst := by
  induction d with
  | nil => simp [lookupA]
  | cons hd t ih =>
    by_cases hk : k = hd.1
    · simp [lookupA, hk]
    · simp [lookupA, hk, ih, Ne.symm hk]

theorem lookupA_append [DecidableEq α] (d e : List (α × β)) (k : α) :
    lookupA (d ++ e) k
      = match lookupA d k with
        | some v => some v
        | none => lookupA e k := by
  induction d with
  | nil => simp [lookupA]
  | cons hd t ih =>
    by_cases hk : k = hd.1
    · simp [lookupA, hk]
    · simp [lookupA, hk, ih]

/-- Inserting into the modelled Python dict behaves as a keyed store:
lookup of the inserted key sees the new value, other keys are untouched. -/
theorem lookupA_pyDictInsert [DecidableEq α] (d : List (α × β)) (k k0 : α) (v : β) :
    lookupA (pyDictInsert d k v) k0 = if k0 = k then some v else lookupA d k0 := by
  unfold pyDictInsert
  by_cases hany : d.any (fun p => decide (p.1 = k)) = true
  · rw [if_pos hany]
    by_cases hk : k0 = k
    · subst hk; rw [if_pos rfl]; exact lookupA_map_self d k0 v hany
    · rw [if_neg hk]; exact lookupA_map_ne d k k0 v hk
  · rw [if_neg hany, lookupA_append]
    by_cases hk : k0 = k
    · subst hk
      have hnone : lookupA d k0 = none := by
        rw [lookupA_none_iff]
        intro hmem
        apply hany
        simp only [List.any_eq_true, decide_eq_true_eq]
        rcases List.mem_map.mp hmem with ⟨p, hp, hfst⟩
        exact ⟨p, hp, hfst⟩
      simp [hnone, lookupA]
    · cases h : lookupA d k0 <;> simp [h, lookupA, hk]

/-- The dict-comprehension fold of `occurence_count`, lookup view. -/
theorem occ_fold [DecidableEq α] (L rest : List α) (acc : List (α × Nat)) (x : α) :
    lookupA (rest.foldl (fun d y => pyDictInsert d y (L.count y)) acc) x
      = if x ∈ rest then some (L.count x) else lookupA acc x := by
  induction rest generalizing acc with
  | nil => simp
  | cons y ys ih =>
    rw [List.foldl_cons, ih]
    by_cases hys : x ∈ ys
    · simp [hys]
    · by_cases hxy : x = y
      · subst hxy; simp [hys, lookupA_pyDictInsert]
      · simp [hys, hxy, lookupA_pyDictInsert]

/-- Claim C10: `occurence_count l` is the mapping whose keys are exactly
the distinct elements of `l` (second conjunct) and which maps each element
of `l` to its number of occurrences in `l` (first conjunct; lookup of a
non-element finds nothing). -/
theorem claim10_occurence_count {α : Type} [DecidableEq α] (l : List α) (x : α) :
    (lookupA (occurence_count l) x = if x ∈ l then some (l.count x) else none) ∧
    (x ∈ (occurence_count l).map Prod.fst ↔ x ∈ l) := by
  have hmain : lookupA (occurence_count l) x
      = if x ∈ l then some (l.count x) else none := by
    unfold occurence_count
    rw [occ_fold]
    simp [lookupA]
  refine ⟨hmain, ?_⟩
  have h2 : x ∈ (occurence_count l).map Prod.fst
      ↔ ¬ (lookupA (occurence_count l) x = none) := by
    rw [lookupA_none_iff]
    tauto
  rw [h2, hmain]
  by_cases hx : x ∈ l <;> simp [hx]

/-- Filtering the deduplicated list for one key keeps exactly that key,
once, when it occurs at all. -/
theorem filter_firstDedup [DecidableEq α] (seen l : List α) (p : α) :
    (firstDedup seen l).filter (fun k => decide (k = p))
      = if p ∈ l ∧ p ∉ seen then [p] else [] := by
  induction l generalizing seen with
  | nil => simp [firstDedup]
  | cons a t ih =>
    by_cases ha : a ∈ seen
    · rw [firstDedup, if_pos ha, ih]
      by_cases hpa : p = a
      · subst hpa
        simp [ha]
      · simp [hpa, List.mem_cons]
    · rw [firstDedup, if_neg ha]
      by_cases hpa : p = a
      · subst hpa
        rw [List.filter_cons_of_pos (by simp), ih]
        simp [ha]
      · rw [List.filter_cons_of_neg (by simp [Ne.symm hpa]), ih]
        simp [hpa, List.mem_cons]

/-- Filtering a keyed map by its key commutes with filtering the keys. -/
theorem filter_map_key {α β : Type} [DecidableEq α] (l : List α) (g : α → β) (p : α) :
    ((l.map (fun k => (k, g k))).filter (fun q => decide (q.1 = p)))
      = (l.filter (fun k => decide (k = p))).map (fun k => (k, g k)) := by
  induction l with
  | nil => rfl
  | cons a t ih =>
    by_cases hap : a = p <;> simp [hap, ih]

theorem myFindIdx_lt_length (q : α → Bool) (l : List α) (h : ∃ x ∈ l, q x = true) :
    myFindIdx q l < l.length := by
  induction l with
  | nil => simp at h
  | cons a t ih =>
    rw [myFindIdx]
    by_cases ha : q a = true
    · simp [ha]
    · rcases h with ⟨x, hx, hqx⟩
      rcases List.mem_cons.mp hx with rfl | hxt
      · exact absurd hqx ha
      · simp only [if_neg ha, List.length_cons]
        exact Nat.succ_lt_succ (ih ⟨x, hxt, hqx⟩)

theorem myFindIdx_found (q : α → Bool) (l : List α) (d : α) (h : ∃ x ∈ l, q x = true) :
    q (l.getD (myFindIdx q l) d) = true := by
  induction l with
  | nil => simp at h
  | cons a t ih =>
    rw [myFindIdx]
    by_cases ha : q a = true
    · simp [ha]
    · rcases h with ⟨x, hx, hqx⟩
      rcases List.mem_cons.mp hx with rfl | hxt
      · exact absurd hqx ha
      · simpa [ha] using ih ⟨x, hxt, hqx⟩

theorem myFindIdx_earliest (q : α → Bool) (l : List α) (d : α) (j : Nat)
    (hj : j < myFindIdx q l) :
    q (l.getD j d) = false := by
  induction l generalizing j with
  | nil => simp [myFindIdx] at hj
  | cons a t ih =>
    rw [myFindIdx] at hj
    by_cases ha : q a = true
    · simp [ha] at hj
    · cases j with
      | zero => simp [Bool.eq_false_iff.mpr (fun hh => ha hh)]
      | succ j0 =>
        rw [if_neg ha] at hj
        simpa using ih j0 (Nat.lt_of_succ_lt_succ hj)

/-- Claim C4: when at least two packages of the resolved set contain a
file at the same relative path `p`, the merge emits exactly one symlink
action at `p` (the filtered action list is a singleton), and its target is
the copy owned by the contributing package of lowest priority rank: that
rank holds `p`, every lower rank does not, and no other contributor
produces an action at `p`. -/
theorem claim4_file_collision_priority (pkgs : List (List (List Char))) (p : List Char)
    (h2 : 2 ≤ pkgs.countP (fun fs => decide (p ∈ fs))) :
    (mergeFileActions pkgs).filter (fun a => decide (a.1 = p))
      = [(p, myFindIdx (fun fs => decide (p ∈ fs)) pkgs)] ∧
    myFindIdx (fun fs => decide (p ∈ fs)) pkgs < pkgs.length ∧
    p ∈ pkgs.getD (myFindIdx (fun fs => decide (p ∈ fs)) pkgs) [] ∧
    ∀ j, j < myFindIdx (fun fs => decide (p ∈ fs)) pkgs → p ∉ pkgs.getD j [] := by
  have hex : ∃ fs ∈ pkgs, decide (p ∈ fs) = true := by
    have hpos : 0 < pkgs.countP (fun fs => decide (p ∈ fs)) :=
      lt_of_lt_of_le (by norm_num) h2
    exact List.countP_pos_iff.mp hpos
  have hmem : p ∈ pkgs.flatten := by
    rcases hex with ⟨fs, hfs, hp⟩
    exact List.mem_flatten.mpr ⟨fs, hfs, of_decide_eq_true hp⟩
  refine ⟨?_, myFindIdx_lt_length _ _ hex, ?_, ?_⟩
  · unfold mergeFileActions
    rw [filter_map_key, filter_firstDedup]
    simp [hmem]
  · exact of_decide_eq_true (myFindIdx_found _ _ [] hex)
  · intro j hj hmem2
    have := myFindIdx_earliest (fun fs => decide (p ∈ fs)) pkgs [] j hj
    rw [decide_eq_false_iff_not] at this
    exact this hmem2

/-- Claim C4, witness: two packages P1 (rank 0) and P2 (rank 1) both
holding `/etc/foo.conf`; the merge's only action at that path is one
symlink to rank 0's file. -/
theorem claim4_file_collision_priority_witness :
    (mergeFileActions [["/etc/foo.conf".data], ["/etc/foo.conf".data]]).filter
        (fun a => decide (a.1 = "/etc/foo.conf".data))
      = [("/etc/foo.conf".data, 0)] ∧
    (2 : Nat) ≤ ([["/etc/foo.conf".data], ["/etc/foo.conf".data]]).countP
        (fun fs => decide ("/etc/foo.conf".data ∈ fs)) := by
  refine ⟨?_, by decide⟩
  have h := claim4_file_collision_priority
    [["/etc/foo.conf".data], ["/etc/foo.conf".data]] "/etc/foo.conf".data (by decide)
  have h0 : myFindIdx (fun fs => decide ("/etc/foo.conf".data ∈ fs))
      [["/etc/foo.conf".data], ["/etc/foo.conf".data]] = 0 := by decide
  rw [h0] at h
  exact h.1

theorem chContains_nil2 (a b : Char) : chContains [a, b] [] = false := by
  simp [chContains]

theorem chContains_one (a b c : Char) : chContains [a, b] [c] = false := by
  simp [chContains, chIsPre]

theorem chContains_two (a b c d : Char) (t : List Char) :
    chContains [a, b] (c :: d :: t)
      = (decide (c = a ∧ d = b) || chContains [a, b] (d :: t)) := by
  have hL : chContains [a, b] (c :: d :: t)
      = (((a == c) && ((b == d) && true)) || chContains [a, b] (d :: t)) := rfl
  rw [hL]
  by_cases h1 : c = a
  · subst h1
    by_cases h2 : d = b
    · subst h2
      simp
    · have h2s : b ≠ d := fun hh => h2 hh.symm
      simp [h2, h2s]
  · have h1s : a ≠ c := fun hh => h1 hh.symm
    simp [h1, h1s]

theorem contains_splitOn2 (a b : Char) :
    (l : List Char) → chContains [a, b] l = true →
      splitOn2 a b l = beforeFirst2 a b l :: splitOn2 a b (rest2 a b l)
  | [], h => by rw [chContains_nil2] at h; exact absurd h (by simp)
  | [c], h => by rw [chContains_one] at h; exact absurd h (by simp)
  | c :: d :: t, h => by
    by_cases hab : c = a ∧ d = b
    · rw [splitOn2, if_pos hab, beforeFirst2, if_pos hab, rest2, if_pos hab]
    · rw [chContains_two, Bool.or_eq_true, decide_eq_true_eq] at h
      rcases h with h | h
      · exact absurd h hab
      · have ih := contains_splitOn2 a b (d :: t) h
        rw [splitOn2, if_neg hab, ih, beforeFirst2, if_neg hab, rest2, if_neg hab]

theorem not_contains_splitOn2 (a b : Char) :
    (l : List Char) → chContains [a, b] l = false → splitOn2 a b l = [l]
  | [], _ => by rw [splitOn2]
  | [c], _ => by rw [splitOn2]
  | c :: d :: t, h => by
    rw [chContains_two, Bool.or_eq_false_iff] at h
    have hab := of_decide_eq_false h.1
    have ih := not_contains_splitOn2 a b (d :: t) h.2
    rw [splitOn2, if_neg hab, ih]

theorem beforeFirst2_decomp (a b : Char) :
    (l : List Char) → chContains [a, b] l = true →
      l = beforeFirst2 a b l ++ a :: b :: rest2 a b l
  | [], h => by rw [chContains_nil2] at h; exact absurd h (by simp)
  | [c], h => by rw [chContains_one] at h; exact absurd h (by simp)
  | c :: d :: t, h => by
    by_cases hab : c = a ∧ d = b
    · rw [beforeFirst2, if_pos hab, rest2, if_pos hab, hab.1, hab.2]
      rfl
    · rw [chContains_two, Bool.or_eq_true, decide_eq_true_eq] at h
      rcases h with h | h
      · exact absurd h hab
      · have ih := beforeFirst2_decomp a b (d :: t) h
        rw [beforeFirst2, if_neg hab, rest2, if_neg hab, List.cons_append]
        exact congrArg (List.cons c) ih

theorem beforeFirst2_of_not_contains (a b : Char) :
    (l : List Char) → chContains [a, b] l = false → beforeFirst2 a b l = l
  | [], _ => rfl
  | [c], _ => rfl
  | c :: d :: t, h => by
    rw [chContains_two, Bool.or_eq_false_iff] at h
    have hab := of_decide_eq_false h.1
    have ih := beforeFirst2_of_not_contains a b (d :: t) h.2
    rw [beforeFirst2, if_neg hab, ih]

theorem splitOn2_head (a b : Char) (l : List Char) :
    (splitOn2 a b l).getD 0 [] = beforeFirst2 a b l := by
  cases h : chContains [a, b] l
  · rw [not_contains_splitOn2 a b l h, beforeFirst2_of_not_contains a b l h]
    rfl
  · rw [contains_splitOn2 a b l h]
    rfl

/-- The amended claim's reading of a matched comparator: the name is the
text before the first occurrence of the comparator, the version is parsed
from the text strictly between the first and the second occurrence (the
whole remainder when the comparator occurs exactly once). -/
def specParseMatched (a b : Char) (cs dep : List Char) :
    Except (List Char) Dependency :=
  let nm := beforeFirst2 a b dep
  let vtext := beforeFirst2 a b (rest2 a b dep)
  match parseVersion vtext with
  | some v => .ok ⟨nm, some cs, some v⟩
  | none => .error vtext

/-- On a matched comparator the code's split-field extraction coincides
with the first/second-occurrence reading. -/
theorem mkParsed_eq_spec (a b : Char) (cs dep : List Char)
    (h : chContains [a, b] dep = true) :
    mkParsed a b cs dep = specParseMatched a b cs dep := by
  unfold mkParsed specParseMatched
  rw [contains_splitOn2 a b dep h]
  simp only [List.getD_cons_zero, List.getD_cons_succ, splitOn2_head]

/-- Claim C6, amended: `parse_dep` scans for `==`, `>=`, `<=` in that
order and recognises only these three; with no match the whole string is a
bare name with absent comparator and version; on a match the name is the
text before the *first* occurrence of that comparator (the decomposition
conjunct exhibits that occurrence) and the version is parsed from the text
*between the first and second* occurrences — Python's `split[1]` — which
equals everything after the first occurrence exactly when the comparator
occurs once. -/
theorem claim6_parse_dep_amended (dep : List Char) :
    (chContains ['=', '='] dep = false → chContains ['>', '='] dep = false →
      chContains ['<', '='] dep = false → parse_dep dep = .ok ⟨dep, none, none⟩) ∧
    (chContains ['=', '='] dep = true →
      dep = beforeFirst2 '=' '=' dep ++ '=' :: '=' :: rest2 '=' '=' dep ∧
      parse_dep dep = specParseMatched '=' '=' ['=', '='] dep) ∧
    (chContains ['=', '='] dep = false → chContains ['>', '='] dep = true →
      dep = beforeFirst2 '>' '=' dep ++ '>' :: '=' :: rest2 '>' '=' dep ∧
      parse_dep dep = specParseMatched '>' '=' ['>', '='] dep) ∧
    (chContains ['=', '='] dep = false → chContains ['>', '='] dep = false →
      chContains ['<', '='] dep = true →
      dep = beforeFirst2 '<' '=' dep ++ '<' :: '=' :: rest2 '<' '=' dep ∧
      parse_dep dep = specParseMatched '<' '=' ['<', '='] dep) := by
  refine ⟨?_, ?_, ?_, ?_⟩
  · intro h1 h2 h3
    unfold parse_dep
    rw [if_neg (by simp [h1]), if_neg (by simp [h2]), if_neg (by simp [h3])]
  · intro h1
    refine ⟨beforeFirst2_decomp _ _ _ h1, ?_⟩
    unfold parse_dep
    rw [if_pos h1]
    exact mkParsed_eq_spec _ _ _ _ h1
  · intro h1 h2
    refine ⟨beforeFirst2_decomp _ _ _ h2, ?_⟩
    unfold parse_dep
    rw [if_neg (by simp [h1]), if_pos h2]
    exact mkParsed_eq_spec _ _ _ _ h2
  · intro h1 h2 h3
    refine ⟨beforeFirst2_decomp _ _ _ h3, ?_⟩
    unfold parse_dep
    rw [if_neg (by simp [h1]), if_neg (by simp [h2]), if_pos h3]
    exact mkParsed_eq_spec _ _ _ _ h3

/-- Claim C6 witness: the spec's own example `pkg1>=2.1.0`, matched by the
`>=` clause of the amended theorem. -/
theorem claim6_parse_dep_amended_witness :
    chContains ['>', '='] "pkg1>=2.1.0".data = true ∧
    parse_dep "pkg1>=2.1.0".data
      = .ok ⟨"pkg1".data, some ['>', '='], some [['2'], ['1'], ['0']]⟩ ∧
    "pkg1>=2.1.0".data
      = beforeFirst2 '>' '=' "pkg1>=2.1.0".data
          ++ '>' :: '=' :: rest2 '>' '=' "pkg1>=2.1.0".data := by
  have h := (claim6_parse_dep_amended "pkg1>=2.1.0".data).2.2.1 (by decide) (by decide)
  exact ⟨by decide, by rw [h.2]; rfl, h.1⟩

/-- The SysPkgs `get_pkg_list` (`pkg.py:229-244`): over any registry
listing in which every `***`-two-part entry carries a parseable version
(the `Version` constructor would raise otherwise), it yields exactly one
`Package` per entry that splits into exactly two `***`-delimited parts —
with that name, that parsed version, and a root inside the registry — and
reports, without aborting, exactly the entries that do not so split. -/
theorem get_pkg_list_SysPkgs_spec (rootp : List Char) (entries : List (List Char))
    (h : ∀ e ∈ entries, (splitOn3 '*' '*' '*' e).length = 2 →
      (parseVersion ((splitOn3 '*' '*' '*' e).getD 1 [])).isSome = true) :
    get_pkg_list rootp entries = .ok
      (entries.filterMap (fun e =>
        let parts := splitOn3 '*' '*' '*' e
        if parts.length = 2 then
          (parseVersion (parts.getD 1 [])).map
            (fun ver => ⟨parts.getD 0 [], ver, rootp ++ "/System/Packages/".data ++ e⟩)
        else none),
       entries.filter (fun e => decide ((splitOn3 '*' '*' '*' e).length ≠ 2))) := by
  induction entries with
  | nil => rfl
  | cons e rest ih =>
    have hrest : ∀ e2 ∈ rest, (splitOn3 '*' '*' '*' e2).length = 2 →
        (parseVersion ((splitOn3 '*' '*' '*' e2).getD 1 [])).isSome = true :=
      fun e2 he2 => h e2 (List.mem_cons_of_mem e he2)
    rw [get_pkg_list]
    by_cases hlen : (splitOn3 '*' '*' '*' e).length = 2
    · have hsome := h e (List.mem_cons_self e rest) hlen
      obtain ⟨ver, hver⟩ := Option.isSome_iff_exists.mp hsome
      rw [if_pos hlen, hver, ih hrest]
      have hb : 1 < (splitOn3 '*' '*' '*' e).length := by omega
      have hver2 : parseVersion ((splitOn3 '*' '*' '*' e)[1]?.getD []) = some ver := by
        simpa using hver
      rw [List.getElem?_eq_getElem hb] at hver2
      simp only [Option.getD_some] at hver2
      simp [List.filterMap_cons, List.filter_cons, hlen, hver2, Bind.bind,
        Except.bind]
    · rw [if_neg hlen, ih hrest]
      simp [List.filterMap_cons, List.filter_cons, hlen, Bind.bind, Except.bind]

/-- The SysApps `get_pkg_list` (`src/SysApps/pkg/pkg.py:168-188`): the
same split-and-skip listing behaviour, but every well-formed entry yields
a record holding the raw version text and the bare entry name as its
path. -/
theorem get_pkg_list_SysApps_spec (entries : List (List Char)) :
    get_pkg_list_SysApps entries
      = (entries.filterMap (fun e =>
          let parts := splitOn3 '*' '*' '*' e
          if parts.length = 2 then
            some ⟨parts.getD 0 [], parts.getD 1 [], e⟩
          else none),
         entries.filter (fun e => decide ((splitOn3 '*' '*' '*' e).length ≠ 2))) := by
  induction entries with
  | nil => rfl
  | cons e rest ih =>
    rw [get_pkg_list_SysApps, ih]
    by_cases hlen : (splitOn3 '*' '*' '*' e).length = 2
    · simp [List.filterMap_cons, List.filter_cons, hlen]
    · simp [List.filterMap_cons, List.filter_cons, hlen]

/-- Claim C7, counterexample: the claim also covers the SysApps
`get_pkg_list` (`src/SysApps/pkg/pkg.py:168-188`), but on the registry
listing `[good***1.0, badentry]` that variant yields a record whose path
is the bare entry name `good***1.0` — not the root
`{root}/System/Packages/good***1.0` inside the registry (the module's
global `root` is `""`) — and whose version field is the raw text
`"1.0"`, never parsed into a Version (whose parse is shown for
contrast). -/
theorem claim7_get_pkg_list_counterexample :
    get_pkg_list_SysApps ["good***1.0".data, "badentry".data]
      = ([⟨"good".data, "1.0".data, "good***1.0".data⟩], ["badentry".data]) ∧
    (⟨"good".data, "1.0".data, "good***1.0".data⟩ : PkgInfoT).path
      ≠ "/System/Packages/good***1.0".data ∧
    parseVersion "1.0".data = some [['1'], ['0']] :=
  ⟨rfl, by decide, by decide⟩

/-- Claim C7, amended: both `get_pkg_list` variants yield exactly one
record per child entry whose name splits into exactly two `***`-delimited
parts and skip every other entry with a diagnostic naming it, never
aborting the listing on it.  The SysPkgs variant yields a `Package` with
that name, that parsed version and a root inside the registry (provided
the two-part entries' version strings parse); the SysApps variant stores
the raw version string and the bare entry name as the path — not a
registry path. -/
theorem claim7_get_pkg_list_amended (rootp : List Char) (entries : List (List Char))
    (h : ∀ e ∈ entries, (splitOn3 '*' '*' '*' e).length = 2 →
      (parseVersion ((splitOn3 '*' '*' '*' e).getD 1 [])).isSome = true) :
    get_pkg_list rootp entries = .ok
      (entries.filterMap (fun e =>
        let parts := splitOn3 '*' '*' '*' e
        if parts.length = 2 then
          (parseVersion (parts.getD 1 [])).map
            (fun ver => ⟨parts.getD 0 [], ver, rootp ++ "/System/Packages/".data ++ e⟩)
        else none),
       entries.filter (fun e => decide ((splitOn3 '*' '*' '*' e).length ≠ 2))) ∧
    get_pkg_list_SysApps entries
      = (entries.filterMap (fun e =>
          let parts := splitOn3 '*' '*' '*' e
          if parts.length = 2 then
            some ⟨parts.getD 0 [], parts.getD 1 [], e⟩
          else none),
         entries.filter (fun e => decide ((splitOn3 '*' '*' '*' e).length ≠ 2))) :=
  ⟨get_pkg_list_SysPkgs_spec rootp entries h, get_pkg_list_SysApps_spec entries⟩

/-- Claim C7 witness: a registry with one well-formed entry and one entry
without `***` — the SysPkgs listing yields exactly the well-formed
package plus one diagnostic naming the other entry, the SysApps listing
the corresponding raw record plus the same diagnostic. -/
theorem claim7_get_pkg_list_amended_witness :
    get_pkg_list [] ["good***1.0".data, "badentry".data]
      = .ok ([⟨"good".data, [['1'], ['0']], "/System/Packages/good***1.0".data⟩],
             ["badentry".data]) ∧
    get_pkg_list_SysApps ["good***1.0".data, "badentry".data]
      = ([⟨"good".data, "1.0".data, "good***1.0".data⟩], ["badentry".data]) := by
  have h := claim7_get_pkg_list_amended [] ["good***1.0".data, "badentry".data]
    (by decide)
  exact ⟨by rw [h.1]; rfl, by rw [h.2]; rfl⟩

theorem natCmp_lt_iff (m n : Nat) : natCmp m n = .lt ↔ m < n := by
  unfold natCmp
  split_ifs with h1 h2 <;> simp_all

theorem natCmp_gt_iff (m n : Nat) : natCmp m n = .gt ↔ n < m := by
  unfold natCmp
  split_ifs with h1 h2 <;> simp_all
  all_goals omega

theorem natCmp_eq_iff (m n : Nat) : natCmp m n = .eq ↔ m = n := by
  unfold natCmp
  split_ifs with h1 h2 <;> simp_all
  all_goals omega

theorem natCmp_swap (m n : Nat) : natCmp n m = (natCmp m n).swap := by
  unfold natCmp
  split_ifs with h1 h2 h3 <;> simp_all [Ordering.swap]
  all_goals omega

theorem lexCmp_self (cmp : α → α → Ordering) (h : ∀ x, cmp x x = .eq) :
    ∀ l : List α, lexCmp cmp l l = .eq
  | [] => rfl
  | a :: t => by rw [lexCmp, h a, lexCmp_self cmp h t]

theorem segCmp_self (s : List Char) : segCmp s s = .eq := by
  unfold segCmp
  split_ifs
  · rw [natCmp_eq_iff]
  · exact lexCmp_self _ (fun x => by rw [natCmp_eq_iff]) s

theorem verCmp_self (v : Version) : verCmp v v = .eq :=
  lexCmp_self segCmp segCmp_self v

/-- All segments of a version are numeric. -/
def segsNumeric (v : Version) : Prop := ∀ s ∈ v, segIsNum s = true

instance (v : Version) : Decidable (segsNumeric v) := by
  unfold segsNumeric
  infer_instance

theorem segCmp_numeric (s t : List Char) (hs : segIsNum s = true)
    (ht : segIsNum t = true) :
    segCmp s t = natCmp (digitsToNat s) (digitsToNat t) := by
  unfold segCmp
  rw [if_pos (by rw [hs, ht]; rfl)]

theorem verCmp_swap_numeric :
    ∀ a b : Version, segsNumeric a → segsNumeric b → verCmp b a = (verCmp a b).swap
  | [], [], _, _ => rfl
  | [], _ :: _, _, _ => rfl
  | _ :: _, [], _, _ => rfl
  | x :: as, y :: bs, ha, hb => by
    have hx : segIsNum x = true := ha x (List.mem_cons_self x as)
    have hy : segIsNum y = true := hb y (List.mem_cons_self y bs)
    have has : segsNumeric as := fun s hs => ha s (List.mem_cons_of_mem x hs)
    have hbs : segsNumeric bs := fun s hs => hb s (List.mem_cons_of_mem y hs)
    show (match segCmp y x with
          | .eq => lexCmp segCmp bs as
          | o => o)
        = (match segCmp x y with
          | .eq => lexCmp segCmp as bs
          | o => o).swap
    rw [segCmp_numeric y x hy hx, segCmp_numeric x y hx hy, natCmp_swap]
    cases hc : natCmp (digitsToNat x) (digitsToNat y) with
    | eq => simpa [Ordering.swap] using verCmp_swap_numeric as bs has hbs
    | lt => rfl
    | gt => rfl

theorem verCmp_trans_ge :
    ∀ a b c : Version, segsNumeric a → segsNumeric b → segsNumeric c →
      verCmp a b ≠ .lt → verCmp b c ≠ .lt → verCmp a c ≠ .lt
  | [], _, [], _, _, _, _, _ => by simp [verCmp, lexCmp]
  | _ :: _, _, [], _, _, _, _, _ => by simp [verCmp, lexCmp]
  | [], y :: bs, z :: cs, _, _, _, h1, _ => absurd rfl h1
  | [], [], z :: cs, _, _, _, _, h2 => absurd rfl h2
  | x :: as, [], z :: cs, _, _, _, _, h2 => absurd rfl h2
  | x :: as, y :: bs, z :: cs, ha, hb, hc, h1, h2 => by
    have hx : segIsNum x = true := ha x (List.mem_cons_self x as)
    have hy : segIsNum y = true := hb y (List.mem_cons_self y bs)
    have hz : segIsNum z = true := hc z (List.mem_cons_self z cs)
    have has : segsNumeric as := fun s hs => ha s (List.mem_cons_of_mem x hs)
    have hbs : segsNumeric bs := fun s hs => hb s (List.mem_cons_of_mem y hs)
    have hcs : segsNumeric cs := fun s hs => hc s (List.mem_cons_of_mem z hs)
    have e1 : verCmp (x :: as) (y :: bs)
        = match natCmp (digitsToNat x) (digitsToNat y) with
          | .eq => verCmp as bs
          | o => o := by
      show (match segCmp x y with | .eq => lexCmp segCmp as bs | o => o) = _
      rw [segCmp_numeric x y hx hy]
      rfl
    have e2 : verCmp (y :: bs) (z :: cs)
        = match natCmp (digitsToNat y) (digitsToNat z) with
          | .eq => verCmp bs cs
          | o => o := by
      show (match segCmp y z with | .eq => lexCmp segCmp bs cs | o => o) = _
      rw [segCmp_numeric y z hy hz]
      rfl
    have e3 : verCmp (x :: as) (z :: cs)
        = match natCmp (digitsToNat x) (digitsToNat z) with
          | .eq => verCmp as cs
          | o => o := by
      show (match segCmp x z with | .eq => lexCmp segCmp as cs | o => o) = _
      rw [segCmp_numeric x z hx hz]
      rfl
    rw [e1] at h1
    rw [e2] at h2
    rw [e3]
    cases hxy : natCmp (digitsToNat x) (digitsToNat y) with
    | lt => rw [hxy] at h1; exact absurd rfl h1
    | eq =>
      rw [hxy] at h1
      cases hyz : natCmp (digitsToNat y) (digitsToNat z) with
      | lt => rw [hyz] at h2; exact absurd rfl h2
      | eq =>
        rw [hyz] at h2
        have hxz : natCmp (digitsToNat x) (digitsToNat z) = .eq := by
          rw [natCmp_eq_iff] at hxy hyz ⊢
          omega
        rw [hxz]
        exact verCmp_trans_ge as bs cs has hbs hcs h1 h2
      | gt =>
        have hxz : natCmp (digitsToNat x) (digitsToNat z) = .gt := by
          rw [natCmp_eq_iff] at hxy
          rw [natCmp_gt_iff] at hyz ⊢
          omega
        rw [hxz]
        exact fun hcl => Ordering.noConfusion hcl
    | gt =>
      cases hyz : natCmp (digitsToNat y) (digitsToNat z) with
      | lt => rw [hyz] at h2; exact absurd rfl h2
      | eq =>
        have hxz : natCmp (digitsToNat x) (digitsToNat z) = .gt := by
          rw [natCmp_gt_iff] at hxy ⊢
          rw [natCmp_eq_iff] at hyz
          omega
        rw [hxz]
        exact fun hcl => Ordering.noConfusion hcl
      | gt =>
        have hxz : natCmp (digitsToNat x) (digitsToNat z) = .gt := by
          rw [natCmp_gt_iff] at hxy hyz ⊢
          omega
        rw [hxz]
        exact fun hcl => Ordering.noConfusion hcl

/-- The `get_pkg` selection loop returns an element of the candidate
list that no candidate strictly exceeds (for numeric versions). -/
theorem newest_fold_max :
    ∀ (rest : List Package) (first : Package),
      segsNumeric first.version → (∀ q ∈ rest, segsNumeric q.version) →
      (rest.foldl newestStep first ∈ first :: rest) ∧
      segsNumeric (rest.foldl newestStep first).version ∧
      (∀ q ∈ first :: rest,
        verCmp (rest.foldl newestStep first).version q.version ≠ .lt)
  | [], first, hf, _ => by
    rw [List.foldl_nil]
    refine ⟨List.mem_cons_self first [], hf, ?_⟩
    intro q hq
    rcases List.mem_cons.mp hq with rfl | hq2
    · rw [verCmp_self]
      exact fun hcl => Ordering.noConfusion hcl
    · simp at hq2
  | p :: ps, first, hf, hr => by
    have hp : segsNumeric p.version := hr p (List.mem_cons_self p ps)
    have hps : ∀ q ∈ ps, segsNumeric q.version :=
      fun q hq => hr q (List.mem_cons_of_mem p hq)
    rw [List.foldl_cons]
    by_cases hlt : verCmp first.version p.version = .lt
    · have hstep : newestStep first p = p := by
        unfold newestStep
        rw [if_pos hlt]
      rw [hstep]
      obtain ⟨hmem, hnum, hmax⟩ := newest_fold_max ps p hp hps
      refine ⟨?_, hnum, ?_⟩
      · rcases List.mem_cons.mp hmem with h | h
        · rw [h]
          exact List.mem_cons_of_mem first (List.mem_cons_self p ps)
        · exact List.mem_cons_of_mem first (List.mem_cons_of_mem p h)
      · intro q hq
        rcases List.mem_cons.mp hq with rfl | hq2
        · -- the result beats p, and p strictly beats first
          have hrp : verCmp (ps.foldl newestStep p).version p.version ≠ .lt :=
            hmax p (List.mem_cons_self p ps)
          have hpf : verCmp p.version q.version ≠ .lt := by
            rw [verCmp_swap_numeric q.version p.version hf hp, hlt]
            exact fun hcl => Ordering.noConfusion hcl
          exact verCmp_trans_ge _ _ _ hnum hp hf hrp hpf
        · exact hmax q hq2
    · have hstep : newestStep first p = first := by
        unfold newestStep
        rw [if_neg hlt]
      rw [hstep]
      obtain ⟨hmem, hnum, hmax⟩ := newest_fold_max ps first hf hps
      refine ⟨?_, hnum, ?_⟩
      · rcases List.mem_cons.mp hmem with h | h
        · rw [h]
          exact List.mem_cons_self first (p :: ps)
        · exact List.mem_cons_of_mem first (List.mem_cons_of_mem p h)
      · intro q hq
        rcases List.mem_cons.mp hq with rfl | hq2
        · exact hmax q (List.mem_cons_self q ps)
        · rcases List.mem_cons.mp hq2 with rfl | hq3
          · have hrf : verCmp (ps.foldl newestStep first).version first.version ≠ .lt :=
              hmax first (List.mem_cons_self first ps)
            exact verCmp_trans_ge _ _ _ hnum hf (hr q (List.mem_cons_self q ps)) hrf hlt
          · exact hmax q (List.mem_cons_of_mem first hq3)

/-- Claim C9: `get_pkg` matches installed packages by substring
containment — it answers `none` exactly when no listed package's name
contains the query as a substring, and any package it returns is a
matching one whose version no other matching candidate strictly exceeds.
Stated over any listing `get_pkg_list` accepts; the maximality conjunct is
restricted to numeric versions, on which the spec-modelled §4.1 ordering
is total. -/
theorem claim9_get_pkg (rootp name : List Char) (entries : List (List Char))
    (pkgs : List Package) (diags : List (List Char))
    (hok : get_pkg_list rootp entries = .ok (pkgs, diags))
    (hnum : ∀ q ∈ pkgs, segsNumeric q.version) :
    (get_pkg rootp entries name = .ok none
        ↔ pkgs.filter (fun p => chContains name p.name) = []) ∧
    (∀ p, get_pkg rootp entries name = .ok (some p) →
      p ∈ pkgs.filter (fun p2 => chContains name p2.name) ∧
      ∀ q ∈ pkgs.filter (fun p2 => chContains name p2.name),
        verCmp p.version q.version ≠ .lt) := by
  have hsearch : search_pkg_list rootp entries name false
      = .ok (pkgs.filter (fun p => chContains name p.name)) := by
    unfold search_pkg_list
    rw [hok]
    rfl
  unfold get_pkg
  rw [hsearch]
  cases hc : pkgs.filter (fun p => chContains name p.name) with
  | nil =>
    refine ⟨⟨fun _ => rfl, fun _ => rfl⟩, ?_⟩
    intro p hp
    simp [Bind.bind, Except.bind] at hp
  | cons first others =>
    have hmemF : first ∈ pkgs.filter (fun p => chContains name p.name) := by
      rw [hc]
      exact List.mem_cons_self first others
    have hnumF : segsNumeric first.version := hnum first (List.mem_filter.mp hmemF).1
    have hnumO : ∀ q ∈ others, segsNumeric q.version := by
      intro q hq
      have hqf : q ∈ pkgs.filter (fun p => chContains name p.name) := by
        rw [hc]
        exact List.mem_cons_of_mem first hq
      exact hnum q (List.mem_filter.mp hqf).1
    obtain ⟨hmem, hnumR, hmax⟩ := newest_fold_max others first hnumF hnumO
    constructor
    · constructor
      · intro h
        simp [Bind.bind, Except.bind] at h
      · intro h
        exact absurd h (by simp)
    · intro p hp
      have hpr : others.foldl newestStep first = p := by
        simpa [Bind.bind, Except.bind] using hp
      rw [← hpr]
      exact ⟨hmem, hmax⟩

/-- A three-entry registry listing used by the `get_pkg` witness. -/
def demoEntries : List (List Char) :=
  ["foo***1.0".data, "foobar***2.0".data, "baz***3.0".data]

/-- The packages `get_pkg_list` yields for `demoEntries`. -/
def demoPkgs : List Package :=
  [⟨"foo".data, [['1'], ['0']], "/System/Packages/foo***1.0".data⟩,
   ⟨"foobar".data, [['2'], ['0']], "/System/Packages/foobar***2.0".data⟩,
   ⟨"baz".data, [['3'], ['0']], "/System/Packages/baz***3.0".data⟩]

/-- Claim C9 witness: querying `foo` against `foo@1.0, foobar@2.0,
baz@3.0` returns `foobar@2.0` — a substring match, not an exact-name
match, with the greatest version among the two matches. -/
theorem claim9_get_pkg_witness :
    get_pkg [] demoEntries "foo".data
      = .ok (some ⟨"foobar".data, [['2'], ['0']],
          "/System/Packages/foobar***2.0".data⟩) ∧
    get_pkg [] demoEntries "foo".data ≠ .ok none := by
  constructor
  · rfl
  · intro hcontra
    have h := claim9_get_pkg [] "foo".data demoEntries demoPkgs [] rfl (by decide)
    have hnil : demoPkgs.filter (fun p => chContains "foo".data p.name) = [] :=
      h.1.mp hcontra
    exact absurd hnil (by decide)

/-- Claim C5 witness: the `<=` clause of `claim5_satisfied_by` applied at
constraint version `1.5` and candidate `1.2`. -/
theorem claim5_satisfied_by_witness :
    satisfied_by ⟨"pkg".data, some ['<', '='], some v15⟩ v12 = some true ∧
    verCmp v15 v12 ≠ .lt :=
  ⟨(claim5_satisfied_by "pkg".data v15 v12).2.2.1.mpr (by decide), by decide⟩

/-- Claim C10 witness: `occurence_count` on `['a', 'b', 'a']` maps `'a'`
to 2 and holds no key `'c'`. -/
theorem claim10_occurence_count_witness :
    lookupA (occurence_count ['a', 'b', 'a']) 'a' = some 2 ∧
    lookupA (occurence_count ['a', 'b', 'a']) 'c' = none := by
  have h1 := claim10_occurence_count ['a', 'b', 'a'] 'a'
  have h2 := claim10_occurence_count ['a', 'b', 'a'] 'c'
  constructor
  · rw [h1.1]
    decide
  · rw [h2.1]
    decide
